import Mathlib

/-!
Verification development for the SyntaxRipper Transfer Queue Manager.

The repository ships an Electron frontend (src/frontend/renderer.js) that
talks to a local HTTP/WebSocket backend.  The backend (QueueStore,
Scheduler, ProgressReporter) is not part of the shipped sources, so its
operations are modelled from the specification; every such definition is
marked with a doc comment starting with the words Modelled from the spec.
The frontend functions (handleWsMessage progress branch, formatTime,
updateDownloadUI remaining-time display, reorderQueue) are shallow
embeddings of the JavaScript in src/frontend/renderer.js.
-/

namespace Renderer

/-- A JavaScript number as it matters to the embedded frontend code:
NaN, the two infinities, or a finite value (modelled as a rational). -/
inductive JsNum where
  | nan : JsNum
  | inf : JsNum
  | ninf : JsNum
  | fin : ℚ → JsNum
deriving DecidableEq, Repr

/-- The JavaScript isNaN test on an already-numeric value. -/
def jsIsNaN : JsNum → Bool
  | .nan => true
  | _ => false

/-- Embedding of the progress branch of handleWsMessage in
src/frontend/renderer.js: after the numeric coercion
(typeof check / parseFloat), the handler replaces NaN by 0 and otherwise
uses the received value unchanged for the bar width and the percent text. -/
def handleProgress (data : JsNum) : JsNum :=
  if jsIsNaN data then .fin 0 else data

/-- The JavaScript truncated quotient used by the % operator. -/
def jsTrunc (x : ℚ) : ℤ :=
  if 0 ≤ x then ⌊x⌋ else ⌈x⌉

/-- The JavaScript remainder operator on numbers (sign of the dividend). -/
def jsMod (x y : ℚ) : ℚ :=
  x - y * jsTrunc (x / y)

/-- The v < 10 zero-padding step of formatTime in src/frontend/renderer.js. -/
def pad2 (v : ℤ) : String :=
  if v < 10 then "0" ++ toString v else toString v

/-- Embedding of formatTime in src/frontend/renderer.js.  The argument
none stands for the JavaScript value Infinity; a finite argument is a
rational.  The JS guard (!seconds or seconds === Infinity) returns the
placeholder for 0 and for Infinity; otherwise hours, minutes and seconds
are floored and zero-padded. -/
def formatTime : Option ℚ → String
  | none => "--:--:--"
  | some q =>
    if q = 0 then "--:--:--"
    else
      pad2 ⌊q / 3600⌋ ++ ":" ++ pad2 ⌊jsMod q 3600 / 60⌋ ++ ":" ++ pad2 ⌊jsMod q 60⌋

/-- Embedding of the remaining-time display in updateDownloadUI
(src/frontend/renderer.js): the element shows
formatTime(status.remaining_time || 0), so an absent or null
remaining_time field is coerced to 0 before formatting. -/
def dlRemainingText (rt : Option ℚ) : String :=
  formatTime (some (rt.getD 0))

/-- First-occurrence index, embedding the JavaScript Array.indexOf used by
reorderQueue (none stands for the JS result -1). -/
def indexOfFirst (x : String) : List String → Option ℕ
  | [] => none
  | y :: ys => if y = x then some 0 else (indexOfFirst x ys).map (· + 1)

/-- Embedding of arr.splice(i, 1): removes the element at index i. -/
def jsSpliceRemove (i : ℕ) (l : List String) : List String :=
  l.eraseIdx i

/-- Embedding of arr.splice(i, 0, x): inserts x at index i, with the JS
clamping of the start index to the array length. -/
def jsSpliceInsert (i : ℕ) (x : String) (l : List String) : List String :=
  l.insertIdx (min i l.length) x

/-- Embedding of reorderQueue in src/frontend/renderer.js.  The argument
is the hash list of the freshly fetched status.queue; the result is the
hash list POSTed to /api/download/queue/reorder, or none when either
index lookup returned -1 and no request is sent. -/
def reorderQueueBody (srcHash targetHash : String) (queueHashes : List String) :
    Option (List String) :=
  match indexOfFirst srcHash queueHashes, indexOfFirst targetHash queueHashes with
  | some si, some ti => some (jsSpliceInsert ti srcHash (jsSpliceRemove si queueHashes))
  | _, _ => none

end Renderer

namespace Core

/-- Lifecycle status of a live Transfer.  Completed, Failed and Cancelled
are terminal and the spec removes the Transfer from the store immediately,
so live transfers carry only these three statuses. -/
inductive TStatus where
  | queued : TStatus
  | active : TStatus
  | paused : TStatus
deriving DecidableEq, Repr

/-- Modelled from the spec: the Transfer record of the data model
(hash, source, alias, status, bytes_total, bytes_done, enqueue_order). -/
structure Transfer where
  hash : String
  source : String
  aliasName : String
  status : TStatus
  bytesTotal : ℕ
  bytesDone : ℕ
  enqueueOrder : ℕ
deriving DecidableEq, Repr

/-- Modelled from the spec: the state owned by the Scheduler, holding the
QueueStore (ordered pending queue plus at most one slot for the running
job), the smoothed speed kept by the ProgressReporter, the on-disk
artifact cache keyed by hash, and the enqueue-order counter. -/
structure QState where
  activeJob : Option Transfer
  queue : List Transfer
  speed : ℚ
  artifacts : List String
  nextOrder : ℕ
deriving DecidableEq, Repr

/-- The empty system: no Active job, empty queue. -/
def initState : QState :=
  { activeJob := none, queue := [], speed := 0, artifacts := [], nextOrder := 0 }

/-- Hashes of the pending queue, in order. -/
def queueHashes (s : QState) : List String :=
  s.queue.map (·.hash)

/-- Hashes of every live transfer: the Active slot first, then the queue. -/
def allHashes (s : QState) : List String :=
  (s.activeJob.map (·.hash)).toList ++ queueHashes s

/-- All live transfers of the store. -/
def allTransfers (s : QState) : List Transfer :=
  s.activeJob.toList ++ s.queue

/-- Number of live transfers whose status is Active. -/
def activeCount (s : QState) : ℕ :=
  (allTransfers s).countP (fun t => t.status = TStatus.active)

/-- Well-formedness of the store: queued entries are Queued, the slot
never holds a Queued transfer, and no hash occurs twice. -/
def Wf (s : QState) : Prop :=
  (∀ t ∈ s.queue, t.status = TStatus.queued) ∧
  (∀ t ∈ s.activeJob.toList, t.status ≠ TStatus.queued) ∧
  (allHashes s).Nodup

instance (s : QState) : Decidable (Wf s) := by
  unfold Wf
  infer_instance

/-- Modelled from the spec: the hash is a fingerprint of source and alias
used for dedup and addressing. -/
def mkHash (source aliasName : String) : String :=
  source ++ "|" ++ aliasName

/-- Modelled from the spec: QueueStore.Enqueue(source, alias) dedups by
hash; enqueuing a duplicate hash is a no-op returning the existing hash,
otherwise a fresh Queued transfer is appended to the queue. -/
def enqueueStore (s : QState) (source aliasName : String) : QState × String :=
  let h := mkHash source aliasName
  if h ∈ allHashes s then (s, h)
  else
    ({ s with
        queue := s.queue ++
          [{ hash := h, source := source, aliasName := aliasName,
             status := TStatus.queued, bytesTotal := 0, bytesDone := 0,
             enqueueOrder := s.nextOrder }],
        nextOrder := s.nextOrder + 1 }, h)

/-- Modelled from the spec: PromoteNext pops the head of the queue into
the Active slot only if the slot is empty; starting the transfer creates
the partial artifact in the cache for its hash. -/
def promoteNext (s : QState) : QState :=
  match s.activeJob with
  | some _ => s
  | none =>
    match s.queue with
    | [] => s
    | t :: rest =>
      { s with
          activeJob := some { t with status := TStatus.active },
          queue := rest,
          artifacts :=
            if t.hash ∈ s.artifacts then s.artifacts else t.hash :: s.artifacts }

/-- Modelled from the spec: the Enqueue command at the Scheduler level
enqueues into the store and then promotes if the Scheduler is idle
(Scenario A: the first enqueue on an empty system becomes Active). -/
def cmdEnqueue (s : QState) (source aliasName : String) : QState × String :=
  let (s1, h) := enqueueStore s source aliasName
  (promoteNext s1, h)

/-- Modelled from the spec: RemoveFromQueue(hash) removes the pending
entry with that hash. -/
def cmdRemove (s : QState) (h : String) : QState :=
  { s with queue := s.queue.filter (fun t => t.hash ≠ h) }

/-- Modelled from the spec: Reorder(orderedHashes) is valid only if the
list is exactly a permutation of the current queue hashes, otherwise it
is rejected with no mutation.  The Bool reports success; on failure the
returned state is the input state untouched. -/
def cmdReorder (s : QState) (hashes : List String) : QState × Bool :=
  if hashes.Perm (queueHashes s) then
    ({ s with queue := hashes.filterMap (fun h => s.queue.find? (fun t => t.hash = h)) },
      true)
  else (s, false)

/-- Modelled from the spec: DemoteActiveToQueue(position) clears the
Active slot and reinserts that transfer into the queue at the requested
position, preserving its accumulated bytes_done. -/
def demoteActive (s : QState) (pos : ℕ) : QState :=
  match s.activeJob with
  | none => s
  | some t =>
    { s with
        activeJob := none,
        queue := s.queue.insertIdx (min pos s.queue.length) { t with status := TStatus.queued } }

/-- Modelled from the spec: Pause suspends the Active job cooperatively;
a second Pause on an already Paused job is a no-op. -/
def cmdPause (s : QState) : QState :=
  match s.activeJob with
  | none => s
  | some t =>
    if t.status = TStatus.active then
      { s with activeJob := some { t with status := TStatus.paused } }
    else s

/-- Modelled from the spec: Resume reattaches to the same partial
artifact and continues; it only flips a Paused job back to Active. -/
def cmdResume (s : QState) : QState :=
  match s.activeJob with
  | none => s
  | some t =>
    if t.status = TStatus.paused then
      { s with activeJob := some { t with status := TStatus.active } }
    else s

/-- Modelled from the spec: Cancel stops the worker, deletes the partial
artifact of the cancelled job from the hash-keyed cache, removes the
transfer, and calls PromoteNext in the same command-processing turn. -/
def cmdCancel (s : QState) : QState :=
  match s.activeJob with
  | none => s
  | some t =>
    promoteNext
      { s with
          activeJob := none,
          artifacts := s.artifacts.filter (fun h => h ≠ t.hash) }

/-- Modelled from the spec: one transport step of the Fetcher for the
Active job; bytes_done advances only while the job is Active (it is
frozen while Paused and there is no work when the slot is empty). -/
def fetchStep (s : QState) (delta : ℕ) : QState :=
  match s.activeJob with
  | some t =>
    if t.status = TStatus.active then
      { s with activeJob := some { t with bytesDone := t.bytesDone + delta } }
    else s
  | none => s

/-- Modelled from the spec: the progress percentage emitted by the
ProgressReporter, clamped to the interval from 0 to 100 (an unknown
total yields 0). -/
def progressPct (t : Transfer) : ℚ :=
  if t.bytesTotal = 0 then 0
  else min 100 (100 * (t.bytesDone : ℚ) / (t.bytesTotal : ℚ))

/-- The progress sample the reporter takes from the whole state. -/
def progressOf (s : QState) : ℚ :=
  match s.activeJob with
  | some t => progressPct t
  | none => 0

/-- Modelled from the spec: remaining_time = (bytes_total - bytes_done)
divided by speed, defined as unbounded (none) when speed is zero, so the
zero-speed branch is total and never divides. -/
def remainingTime (bytesTotal bytesDone : ℕ) (speed : ℚ) : Option ℚ :=
  if speed = 0 then none
  else some (((bytesTotal : ℚ) - (bytesDone : ℚ)) / speed)

/-- Modelled from the spec: the StatusSnapshot returned by GetStatus:
active flag, current transfer fields, smoothed speed, remaining time,
pause flag, and the ordered pending queue as hash and alias pairs. -/
structure StatusSnapshot where
  active : Bool
  hash : Option String
  aliasName : Option String
  progress : ℚ
  speed : ℚ
  remaining : Option ℚ
  isPaused : Bool
  queue : List (String × String)
deriving DecidableEq, Repr

/-- Modelled from the spec: the snapshot is computed directly from the
live store state. -/
def snapshotOf (s : QState) : StatusSnapshot :=
  match s.activeJob with
  | some t =>
    { active := true, hash := some t.hash, aliasName := some t.aliasName,
      progress := progressPct t, speed := s.speed,
      remaining := remainingTime t.bytesTotal t.bytesDone s.speed,
      isPaused := t.status = TStatus.paused,
      queue := s.queue.map (fun u => (u.hash, u.aliasName)) }
  | none =>
    { active := false, hash := none, aliasName := none,
      progress := 0, speed := 0, remaining := none, isPaused := false,
      queue := s.queue.map (fun u => (u.hash, u.aliasName)) }

/-- Modelled from the spec: one push event of the NotificationChannel. -/
inductive PushEvent where
  | statusEv : String → PushEvent
  | progressEv : ℚ → PushEvent
  | metaEv : String → PushEvent
  | completeEv : String → PushEvent
deriving DecidableEq, Repr

/-- Modelled from the spec: the whole observable system: the committed
store state plus the outbound push buffer of the NotificationChannel
with its bounded capacity. -/
structure System where
  store : QState
  pushBuffer : List PushEvent
  bufCap : ℕ
deriving DecidableEq, Repr

/-- Modelled from the spec: operations on the push channel alone: an
emission (dropped, not awaited, when the buffer is full), a delivery to
a consumer, a drop of the head, or an arbitrary reordering of the
in-flight buffer. -/
inductive ChanOp where
  | emit : PushEvent → ChanOp
  | deliver : ChanOp
  | dropHead : ChanOp
  | swapFront : ChanOp
deriving DecidableEq, Repr

/-- Modelled from the spec: effect of a channel operation on the system;
every branch touches only the push buffer. -/
def applyChanOp (sys : System) : ChanOp → System
  | .emit e =>
    if sys.pushBuffer.length < sys.bufCap then
      { sys with pushBuffer := sys.pushBuffer ++ [e] }
    else sys
  | .deliver =>
    { sys with pushBuffer := sys.pushBuffer.tail }
  | .dropHead =>
    { sys with pushBuffer := sys.pushBuffer.tail }
  | .swapFront =>
    match sys.pushBuffer with
    | a :: b :: rest => { sys with pushBuffer := b :: a :: rest }
    | l => { sys with pushBuffer := l }

/-- A whole history of push-channel traffic applied in order. -/
def applyChanOps (sys : System) (ops : List ChanOp) : System :=
  ops.foldl applyChanOp sys

/-- Modelled from the spec: GetStatus is the pull endpoint; the snapshot
is computed from the live committed store at request time. -/
def getStatus (sys : System) : StatusSnapshot :=
  snapshotOf sys.store

/-- States reachable from the empty system through the serialized
command interface of the Scheduler. -/
inductive Reachable : QState → Prop where
  | init : Reachable initState
  | enqueue (source aliasName : String) {s : QState} :
      Reachable s → Reachable (cmdEnqueue s source aliasName).1
  | remove (h : String) {s : QState} :
      Reachable s → Reachable (cmdRemove s h)
  | reorder (hashes : List String) {s : QState} :
      Reachable s → Reachable (cmdReorder s hashes).1
  | promote {s : QState} : Reachable s → Reachable (promoteNext s)
  | demote (pos : ℕ) {s : QState} :
      Reachable s → Reachable (demoteActive s pos)
  | pause {s : QState} : Reachable s → Reachable (cmdPause s)
  | resume {s : QState} : Reachable s → Reachable (cmdResume s)
  | cancel {s : QState} : Reachable s → Reachable (cmdCancel s)

end Core

namespace Core

/-- A concrete running transfer used by the closed witnesses below. -/
def sampleT : Transfer :=
  { hash := "h1", source := "u1", aliasName := "A", status := TStatus.active,
    bytesTotal := 100, bytesDone := 40, enqueueOrder := 0 }

/-- A concrete pending transfer used by the closed witnesses below. -/
def sampleT2 : Transfer :=
  { hash := "h2", source := "u2", aliasName := "B", status := TStatus.queued,
    bytesTotal := 0, bytesDone := 0, enqueueOrder := 1 }

/-- A second concrete pending transfer used by the closed witnesses below. -/
def sampleT3 : Transfer :=
  { hash := "h3", source := "u3", aliasName := "C", status := TStatus.queued,
    bytesTotal := 0, bytesDone := 0, enqueueOrder := 2 }

/-- A concrete state whose Active job is paused. -/
def pausedS : QState :=
  { activeJob := some { sampleT with status := TStatus.paused }, queue := [],
    speed := 1, artifacts := ["h1"], nextOrder := 1 }

/-- A concrete state with a running job and one pending entry. -/
def activeS : QState :=
  { activeJob := some sampleT, queue := [sampleT2], speed := 1,
    artifacts := ["h1"], nextOrder := 2 }

/-- A concrete state with a running job and two pending entries. -/
def queuedS : QState :=
  { activeJob := some sampleT, queue := [sampleT2, sampleT3], speed := 1,
    artifacts := ["h1"], nextOrder := 3 }

/-- A concrete system wrapping activeS with a non-empty push buffer. -/
def sysW : System :=
  { store := activeS, pushBuffer := [PushEvent.progressEv 40], bufCap := 4 }

/-- A concrete system wrapping activeS with an empty push buffer. -/
def sysW2 : System :=
  { store := activeS, pushBuffer := [], bufCap := 4 }

end Core

namespace Core

theorem store_applyChanOp (sys : System) (op : ChanOp) :
    (applyChanOp sys op).store = sys.store := by
  cases op with
  | emit e =>
    by_cases h : sys.pushBuffer.length < sys.bufCap <;> simp [applyChanOp, h]
  | deliver => rfl
  | dropHead => rfl
  | swapFront =>
    rcases hb : sys.pushBuffer with _ | ⟨a, _ | ⟨b, rest⟩⟩ <;> simp [applyChanOp, hb]

theorem store_applyChanOps (sys : System) (ops : List ChanOp) :
    (applyChanOps sys ops).store = sys.store := by
  induction ops generalizing sys with
  | nil => rfl
  | cons op ops ih =>
    rw [applyChanOps, List.foldl_cons, ← applyChanOps, ih, store_applyChanOp]

end Core

/-- C3: the claim states that every progress value delivered by the
handler lies in the interval from 0 to 100 and that negative inputs
collapse to 0.  This is false: the handler in src/frontend/renderer.js
only replaces NaN by 0 and forwards the value -5 unchanged. -/
theorem claim_C3_counterexample :
    ¬ (∀ d q, Renderer.handleProgress d = Renderer.JsNum.fin q → 0 ≤ q ∧ q ≤ 100) := by
  intro hclaim
  have h5 : Renderer.handleProgress (Renderer.JsNum.fin (-5)) = Renderer.JsNum.fin (-5) := rfl
  have := (hclaim (Renderer.JsNum.fin (-5)) (-5) h5).1
  norm_num at this

/-- C3 amended: the progress branch of handleWsMessage collapses NaN to
0 and delivers every other value unchanged: finite values (negative ones
and values above 100 included) and the infinities pass through with no
clamping to the interval from 0 to 100. -/
theorem claim_C3_amended_thm :
    Renderer.handleProgress Renderer.JsNum.nan = Renderer.JsNum.fin 0 ∧
    (∀ q : ℚ, Renderer.handleProgress (Renderer.JsNum.fin q) = Renderer.JsNum.fin q) ∧
    Renderer.handleProgress Renderer.JsNum.inf = Renderer.JsNum.inf ∧
    Renderer.handleProgress Renderer.JsNum.ninf = Renderer.JsNum.ninf :=
  ⟨rfl, fun _ => rfl, rfl, rfl⟩

/-- C7: Pause is idempotent: whenever the Active job is already Paused,
issuing Pause again leaves the whole state unchanged, and in general
issuing Pause twice is the same as issuing it once. -/
theorem claim_C7_pause_idempotent (s : Core.QState) :
    (∀ t, s.activeJob = some t → t.status = Core.TStatus.paused →
      Core.cmdPause s = s) ∧
    Core.cmdPause (Core.cmdPause s) = Core.cmdPause s := by
  constructor
  · intro t hA hP
    unfold Core.cmdPause
    rw [hA]
    simp [hP]
  · rcases hA : s.activeJob with _ | t
    · simp [Core.cmdPause, hA]
    · by_cases ht : t.status = Core.TStatus.active
      · simp [Core.cmdPause, hA, ht]
      · simp [Core.cmdPause, hA, ht]

/-- C7 witness: issuing Pause on the concrete paused state leaves it
unchanged. -/
theorem claim_C7_witness : Core.cmdPause Core.pausedS = Core.pausedS :=
  (claim_C7_pause_idempotent Core.pausedS).1
    { Core.sampleT with status := Core.TStatus.paused } rfl rfl

/-- C8: the reported remaining time equals (bytes_total - bytes_done)
divided by speed whenever speed is nonzero, and is the unbounded marker
(none) when speed is zero; in that case the frontend display in
updateDownloadUI shows the placeholder rather than crashing. -/
theorem claim_C8_remaining_time (total done : ℕ) (speed : ℚ) :
    (speed ≠ 0 →
      Core.remainingTime total done speed = some (((total : ℚ) - (done : ℚ)) / speed)) ∧
    (speed = 0 →
      Core.remainingTime total done speed = none ∧
        Renderer.dlRemainingText (Core.remainingTime total done speed) = "--:--:--") := by
  constructor
  · intro h
    simp [Core.remainingTime, h]
  · intro h
    subst h
    constructor
    · simp [Core.remainingTime]
    · simp [Core.remainingTime, Renderer.dlRemainingText, Renderer.formatTime]

/-- C8 witness: with 100 total bytes, 40 done and speed 2 the remaining
time is 30; with speed 0 it is unbounded and displays the placeholder. -/
theorem claim_C8_witness :
    Core.remainingTime 100 40 2 = some (((100 : ℚ) - (40 : ℚ)) / 2) ∧
    (Core.remainingTime 100 40 0 = none ∧
      Renderer.dlRemainingText (Core.remainingTime 100 40 0) = "--:--:--") :=
  ⟨(claim_C8_remaining_time 100 40 2).1 (by decide),
    (claim_C8_remaining_time 100 40 0).2 rfl⟩

/-- Advancing bytes_done never decreases the clamped percentage. -/
theorem progressPct_mono_aux (t : Core.Transfer) (d : ℕ) :
    Core.progressPct t ≤ Core.progressPct { t with bytesDone := t.bytesDone + d } := by
  unfold Core.progressPct
  by_cases h0 : t.bytesTotal = 0
  · simp [h0]
  · have hpos : (0 : ℚ) < (t.bytesTotal : ℚ) := by
      exact_mod_cast Nat.pos_of_ne_zero h0
    simp only [h0, ite_false]
    apply min_le_min le_rfl
    have hd : (0 : ℚ) ≤ (d : ℚ) := by positivity
    push_cast
    gcongr
    linarith

/-- C5: while a job is Active and not Paused, one transport step never
decreases the sampled progress percentage, so consecutive progress
samples with no intervening pause or terminal transition are
non-decreasing. -/
theorem claim_C5_progress_monotone (s : Core.QState) (t : Core.Transfer) (d : ℕ)
    (hA : s.activeJob = some t) (hAct : t.status = Core.TStatus.active) :
    Core.progressOf s ≤ Core.progressOf (Core.fetchStep s d) := by
  have hstep : Core.fetchStep s d =
      { s with activeJob := some { t with bytesDone := t.bytesDone + d } } := by
    simp [Core.fetchStep, hA, hAct]
  have h1 : Core.progressOf s = Core.progressPct t := by
    unfold Core.progressOf
    rw [hA]
  have h2 : Core.progressOf
      { s with activeJob := some { t with bytesDone := t.bytesDone + d } } =
      Core.progressPct { t with bytesDone := t.bytesDone + d } := rfl
  rw [hstep, h1, h2]
  exact progressPct_mono_aux t d

/-- C5 witness: one fetch step of 10 bytes on the concrete running state
does not decrease the sampled progress. -/
theorem claim_C5_witness :
    Core.progressOf Core.activeS ≤ Core.progressOf (Core.fetchStep Core.activeS 10) :=
  claim_C5_progress_monotone Core.activeS Core.sampleT 10 rfl rfl

/-- C6: GetStatus is a function of the committed store alone: systems
with identical stores answer identically, and no history of push-channel
traffic (emissions, deliveries, drops or reorderings) changes the pull
response. -/
theorem claim_C6_pull_authoritative (sys1 sys2 : Core.System) (ops : List Core.ChanOp)
    (h : sys1.store = sys2.store) :
    Core.getStatus sys1 = Core.getStatus sys2 ∧
    Core.getStatus (Core.applyChanOps sys1 ops) = Core.getStatus sys1 := by
  constructor
  · unfold Core.getStatus
    rw [h]
  · unfold Core.getStatus
    rw [Core.store_applyChanOps]

/-- C6 witness: the two concrete systems share a store and answer
identically, and a concrete push history does not change the answer. -/
theorem claim_C6_witness :
    Core.getStatus Core.sysW = Core.getStatus Core.sysW2 ∧
    Core.getStatus
        (Core.applyChanOps Core.sysW
          [Core.ChanOp.emit (Core.PushEvent.statusEv "x"), Core.ChanOp.swapFront,
            Core.ChanOp.deliver, Core.ChanOp.dropHead]) =
      Core.getStatus Core.sysW :=
  claim_C6_pull_authoritative Core.sysW Core.sysW2
    [Core.ChanOp.emit (Core.PushEvent.statusEv "x"), Core.ChanOp.swapFront,
      Core.ChanOp.deliver, Core.ChanOp.dropHead] rfl

/-- C4: Scenario A: starting from the empty system, Enqueue of "a" and
then of "b" leaves "a" Active, "b" as the only queued entry, and the
queue field of the status snapshot lists only the pending job "b",
excluding the Active transfer. -/
theorem claim_C4_scenario_a :
    ((Core.cmdEnqueue (Core.cmdEnqueue Core.initState "a" "a").1 "b" "b").1.activeJob.map (·.hash)
        = some (Core.mkHash "a" "a")) ∧
    Core.queueHashes (Core.cmdEnqueue (Core.cmdEnqueue Core.initState "a" "a").1 "b" "b").1
        = [Core.mkHash "b" "b"] ∧
    (Core.snapshotOf (Core.cmdEnqueue (Core.cmdEnqueue Core.initState "a" "a").1 "b" "b").1).queue
        = [(Core.mkHash "b" "b", "b")] := by
  decide

/-- The transfers recovered by hash from the queue carry back exactly
the requested hash list, provided every requested hash occurs in the
queue. -/
theorem filterMap_find_map_hash (queue : List Core.Transfer) (hashes : List String)
    (hmem : ∀ h ∈ hashes, h ∈ queue.map (·.hash)) :
    (hashes.filterMap (fun h => queue.find? (fun t => t.hash = h))).map (·.hash) = hashes := by
  induction hashes with
  | nil => rfl
  | cons h hs ih =>
    have hh : h ∈ queue.map (·.hash) := hmem h (List.mem_cons_self h hs)
    obtain ⟨t, ht, hth⟩ := List.mem_map.mp hh
    have hsome : (queue.find? (fun t => t.hash = h)).isSome := by
      rw [List.find?_isSome]
      exact ⟨t, ht, by simp [hth]⟩
    obtain ⟨t', hfind⟩ := Option.isSome_iff_exists.mp hsome
    have ht' : t'.hash = h := by
      have := List.find?_some hfind
      simpa using this
    simp only [List.filterMap_cons, hfind, List.map_cons, ht']
    rw [ih (fun x hx => hmem x (List.mem_cons_of_mem h hx))]

/-- Every transfer recovered by hash from the queue is a member of the
queue. -/
theorem filterMap_find_subset (queue : List Core.Transfer) (hashes : List String) :
    ∀ t ∈ hashes.filterMap (fun h => queue.find? (fun t => t.hash = h)), t ∈ queue := by
  intro t htmem
  obtain ⟨h, _, hfind⟩ := List.mem_filterMap.mp htmem
  exact List.mem_of_find?_eq_some hfind

/-- C2: Reorder with a list that is not an exact permutation of the
current queue hashes fails and leaves the whole state untouched; with an
exact permutation it succeeds and the queue order afterwards is exactly
the given list, all other state unchanged. -/
theorem claim_C2_reorder_permutation (s : Core.QState) (hashes : List String) :
    (¬ hashes.Perm (Core.queueHashes s) → Core.cmdReorder s hashes = (s, false)) ∧
    (hashes.Perm (Core.queueHashes s) →
      (Core.cmdReorder s hashes).2 = true ∧
      Core.queueHashes (Core.cmdReorder s hashes).1 = hashes ∧
      (Core.cmdReorder s hashes).1.activeJob = s.activeJob ∧
      (Core.cmdReorder s hashes).1.speed = s.speed ∧
      (Core.cmdReorder s hashes).1.artifacts = s.artifacts ∧
      (Core.cmdReorder s hashes).1.nextOrder = s.nextOrder) := by
  constructor
  · intro hnp
    simp [Core.cmdReorder, hnp]
  · intro hp
    have hmem : ∀ h ∈ hashes, h ∈ s.queue.map (·.hash) :=
      fun h hh => hp.mem_iff.mp hh
    have hred : Core.cmdReorder s hashes =
        ({ s with queue := hashes.filterMap (fun h => s.queue.find? (fun t => t.hash = h)) },
          true) := by
      simp [Core.cmdReorder, hp]
    rw [hred]
    exact ⟨rfl, filterMap_find_map_hash s.queue hashes hmem, rfl, rfl, rfl, rfl⟩

/-- C2 witness: on the concrete two-element queue, the non-permutation
["h9"] is rejected with the state untouched, and the permutation
["h3", "h2"] succeeds and reorders the queue exactly. -/
theorem claim_C2_witness :
    Core.cmdReorder Core.queuedS ["h9"] = (Core.queuedS, false) ∧
    ((Core.cmdReorder Core.queuedS ["h3", "h2"]).2 = true ∧
      Core.queueHashes (Core.cmdReorder Core.queuedS ["h3", "h2"]).1 = ["h3", "h2"] ∧
      (Core.cmdReorder Core.queuedS ["h3", "h2"]).1.activeJob = Core.queuedS.activeJob ∧
      (Core.cmdReorder Core.queuedS ["h3", "h2"]).1.speed = Core.queuedS.speed ∧
      (Core.cmdReorder Core.queuedS ["h3", "h2"]).1.artifacts = Core.queuedS.artifacts ∧
      (Core.cmdReorder Core.queuedS ["h3", "h2"]).1.nextOrder = Core.queuedS.nextOrder) :=
  ⟨(claim_C2_reorder_permutation Core.queuedS ["h9"]).1 (by decide),
    (claim_C2_reorder_permutation Core.queuedS ["h3", "h2"]).2 (by decide)⟩

/-- The embedded Array.indexOf returns -1 exactly on absent elements. -/
theorem indexOfFirst_eq_none_iff (x : String) (l : List String) :
    Renderer.indexOfFirst x l = none ↔ x ∉ l := by
  induction l with
  | nil => simp [Renderer.indexOfFirst]
  | cons y ys ih =>
    by_cases h : y = x
    · simp [Renderer.indexOfFirst, h]
    · simp [Renderer.indexOfFirst, h, ih, Ne.symm h]

/-- A successful Array.indexOf lookup is a valid index holding the
searched element. -/
theorem indexOfFirst_some (x : String) (l : List String) (i : ℕ)
    (h : Renderer.indexOfFirst x l = some i) :
    ∃ hi : i < l.length, l.get ⟨i, hi⟩ = x := by
  induction l generalizing i with
  | nil => simp [Renderer.indexOfFirst] at h
  | cons y ys ih =>
    by_cases hy : y = x
    · simp only [Renderer.indexOfFirst, if_pos hy, Option.some.injEq] at h
      subst h
      exact ⟨Nat.succ_pos _, hy⟩
    · simp only [Renderer.indexOfFirst, if_neg hy, Option.map_eq_some'] at h
      obtain ⟨j, hj, rfl⟩ := h
      obtain ⟨hlt, hget⟩ := ih j hj
      exact ⟨Nat.succ_lt_succ hlt, hget⟩

/-- Inserting an element at an in-range position is a permutation of
pushing it in front. -/
theorem insertIdx_perm_cons {α : Type} (x : α) :
    ∀ (m : List α) (j : ℕ), j ≤ m.length → (m.insertIdx j x).Perm (x :: m)
  | m, 0, _ => by simp
  | [], j + 1, h => by simp at h
  | a :: m, j + 1, h => by
    rw [List.insertIdx_succ_cons]
    exact ((insertIdx_perm_cons x m j (Nat.le_of_succ_le_succ h)).cons a).trans
      (List.Perm.swap x a m)

/-- Removing the element found at an index is a permutation inverse of
pushing that element in front. -/
theorem perm_get_cons_eraseIdx (l : List String) (i : ℕ) (hi : i < l.length) :
    l.Perm (l.get ⟨i, hi⟩ :: l.eraseIdx i) := by
  have h1 : l.Perm (l.get ⟨i, hi⟩ :: l.erase (l.get ⟨i, hi⟩)) :=
    List.perm_cons_erase (List.get_mem l i hi)
  have h2 : (l.erase (l.get ⟨i, hi⟩)).Perm (l.eraseIdx i) := by
    have := List.erase_getElem (l := l) (i := i) hi
    simpa [List.get_eq_getElem] using this
  exact h1.trans (h2.cons _)

/-- C10: the client reorder never constructs an invalid request: with
both hashes present in the fetched queue it posts an exact permutation
of the fetched hashes (the source hash removed and reinserted at the
index of the target), and with either hash absent it sends nothing. -/
theorem claim_C10_client_reorder (src tgt : String) (queue : List String)
    (_hne : src ≠ tgt) :
    ((src ∉ queue ∨ tgt ∉ queue) → Renderer.reorderQueueBody src tgt queue = none) ∧
    (src ∈ queue → tgt ∈ queue →
      ∃ posted, Renderer.reorderQueueBody src tgt queue = some posted ∧
        posted.Perm queue) := by
  constructor
  · intro habs
    unfold Renderer.reorderQueueBody
    rcases habs with habs | habs
    · rw [(indexOfFirst_eq_none_iff src queue).mpr habs]
    · rw [(indexOfFirst_eq_none_iff tgt queue).mpr habs]
      rcases Renderer.indexOfFirst src queue with _ | si <;> rfl
  · intro hsrc htgt
    rcases hsi : Renderer.indexOfFirst src queue with _ | si
    · exact absurd ((indexOfFirst_eq_none_iff src queue).mp hsi) (by simpa using hsrc)
    rcases hti : Renderer.indexOfFirst tgt queue with _ | ti
    · exact absurd ((indexOfFirst_eq_none_iff tgt queue).mp hti) (by simpa using htgt)
    refine ⟨Renderer.jsSpliceInsert ti src (Renderer.jsSpliceRemove si queue), ?_, ?_⟩
    · unfold Renderer.reorderQueueBody
      rw [hsi, hti]
    · obtain ⟨hlt, hget⟩ := indexOfFirst_some src queue si hsi
      have hins : (Renderer.jsSpliceInsert ti src (Renderer.jsSpliceRemove si queue)).Perm
          (src :: Renderer.jsSpliceRemove si queue) := by
        unfold Renderer.jsSpliceInsert
        exact insertIdx_perm_cons src _ _ (Nat.min_le_right _ _)
      have hrem : queue.Perm (src :: Renderer.jsSpliceRemove si queue) := by
        unfold Renderer.jsSpliceRemove
        have := perm_get_cons_eraseIdx queue si hlt
        rwa [hget] at this
      exact hins.trans hrem.symm

/-- C10 witness: on the fetched queue a, b, c dragging a onto c posts a
permutation of the fetched hashes, and with a hash absent from the
fetched queue nothing is posted. -/
theorem claim_C10_witness :
    Renderer.reorderQueueBody "a" "c" ["z"] = none ∧
    ∃ posted, Renderer.reorderQueueBody "a" "c" ["a", "b", "c"] = some posted ∧
      posted.Perm ["a", "b", "c"] :=
  ⟨(claim_C10_client_reorder "a" "c" ["z"] (by decide)).1 (Or.inl (by decide)),
    (claim_C10_client_reorder "a" "c" ["a", "b", "c"] (by decide)).2
      (by decide) (by decide)⟩

/-- The head of a well-formed queue never shares its hash with the
Active job. -/
theorem head_hash_ne_active (s : Core.QState) (a h : Core.Transfer)
    (tl : List Core.Transfer) (hwf : Core.Wf s) (hA : s.activeJob = some a)
    (hq : s.queue = h :: tl) : h.hash ≠ a.hash := by
  have hnd := hwf.2.2
  simp only [Core.allHashes, Core.queueHashes, hA, hq, Option.map_some',
    Option.toList_some, List.map_cons, List.singleton_append,
    List.nodup_cons, List.mem_cons] at hnd
  intro hEq
  exact hnd.1 (Or.inl hEq.symm)

/-- C9: cancelling the Active job removes its partial artifact, the
snapshot no longer reports it as current, and in the same
command-processing turn the head of the queue is promoted into the
Active slot (with an empty queue the scheduler idles with no Active
job). -/
theorem claim_C9_cancel_promotes (s : Core.QState) (a : Core.Transfer)
    (hwf : Core.Wf s) (hA : s.activeJob = some a) :
    (Core.snapshotOf (Core.cmdCancel s)).hash ≠ some a.hash ∧
    a.hash ∉ (Core.cmdCancel s).artifacts ∧
    (∀ h tl, s.queue = h :: tl →
      (Core.cmdCancel s).activeJob = some { h with status := Core.TStatus.active } ∧
      (Core.cmdCancel s).queue = tl) ∧
    (s.queue = [] →
      (Core.cmdCancel s).activeJob = none ∧
      (Core.snapshotOf (Core.cmdCancel s)).active = false) := by
  have hfilter : a.hash ∉ s.artifacts.filter (fun x => x ≠ a.hash) := by simp
  have hcc : Core.cmdCancel s = Core.promoteNext
      { s with activeJob := none,
               artifacts := s.artifacts.filter (fun x => x ≠ a.hash) } := by
    simp [Core.cmdCancel, hA]
  refine ⟨?_, ?_, ?_, ?_⟩
  · rcases hq : s.queue with _ | ⟨h, tl⟩
    · rw [hcc]
      simp [Core.promoteNext, hq, Core.snapshotOf]
    · have hne := head_hash_ne_active s a h tl hwf hA hq
      rw [hcc]
      simp [Core.promoteNext, hq, Core.snapshotOf]
      exact hne
  · rcases hq : s.queue with _ | ⟨h, tl⟩
    · rw [hcc]
      simp [Core.promoteNext, hq]
    · have hne := head_hash_ne_active s a h tl hwf hA hq
      rw [hcc]
      simp only [Core.promoteNext, hq]
      split
      · exact hfilter
      · simp only [List.mem_cons]
        push_neg
        exact ⟨fun hEq => hne hEq.symm, hfilter⟩
  · intro h tl hq
    rw [hcc]
    constructor <;> simp [Core.promoteNext, hq]
  · intro hq
    rw [hcc]
    constructor <;> simp [Core.promoteNext, hq, Core.snapshotOf]

/-- C9 witness: cancelling the running job of the concrete state with
two pending entries promotes the first pending entry in the same turn
and removes the cancelled partial artifact. -/
theorem claim_C9_witness :
    (Core.snapshotOf (Core.cmdCancel Core.queuedS)).hash ≠ some Core.sampleT.hash ∧
    Core.sampleT.hash ∉ (Core.cmdCancel Core.queuedS).artifacts ∧
    (∀ h tl, Core.queuedS.queue = h :: tl →
      (Core.cmdCancel Core.queuedS).activeJob =
        some { h with status := Core.TStatus.active } ∧
      (Core.cmdCancel Core.queuedS).queue = tl) ∧
    (Core.queuedS.queue = [] →
      (Core.cmdCancel Core.queuedS).activeJob = none ∧
      (Core.snapshotOf (Core.cmdCancel Core.queuedS)).active = false) :=
  claim_C9_cancel_promotes Core.queuedS Core.sampleT (by decide) rfl

namespace Core

theorem wf_initState : Wf initState := by
  refine ⟨?_, ?_, ?_⟩ <;> simp [initState, allHashes, queueHashes]

theorem wf_promoteNext (s : QState) (hwf : Wf s) : Wf (promoteNext s) := by
  obtain ⟨h1, h2, h3⟩ := hwf
  rcases hA : s.activeJob with _ | t
  · rcases hq : s.queue with _ | ⟨t, rest⟩
    · simpa [promoteNext, hA, hq] using ⟨h1, h2, h3⟩
    · refine ⟨?_, ?_, ?_⟩
      · intro u hu
        simp only [promoteNext, hA, hq] at hu
        exact h1 u (by simp [hq, hu])
      · intro u hu
        simp only [promoteNext, hA, hq] at hu
        simp at hu
        subst hu
        simp
      · have : allHashes (promoteNext s) = allHashes s := by
          simp [promoteNext, allHashes, queueHashes, hA, hq]
        rw [this]
        exact h3
  · simpa [promoteNext, hA] using ⟨h1, h2, h3⟩

theorem wf_enqueueStore (s : QState) (src al : String) (hwf : Wf s) :
    Wf (enqueueStore s src al).1 := by
  obtain ⟨h1, h2, h3⟩ := hwf
  by_cases hdup : mkHash src al ∈ allHashes s
  · simpa [enqueueStore, hdup] using ⟨h1, h2, h3⟩
  · refine ⟨?_, ?_, ?_⟩
    · intro u hu
      simp only [enqueueStore, hdup, if_neg] at hu
      simp only [ite_false, List.mem_append, List.mem_singleton] at hu
      rcases hu with hu | hu
      · exact h1 u hu
      · subst hu
        rfl
    · intro u hu
      simp only [enqueueStore, hdup, ite_false] at hu
      exact h2 u hu
    · have hrw : allHashes (enqueueStore s src al).1 =
          allHashes s ++ [mkHash src al] := by
        unfold enqueueStore
        rw [if_neg hdup]
        simp [allHashes, queueHashes, List.append_assoc]
      rw [hrw]
      rw [List.nodup_append]
      refine ⟨h3, List.nodup_singleton _, ?_⟩
      intro x hx hx'
      simp only [List.mem_singleton] at hx'
      subst hx'
      exact hdup hx

theorem cmdEnqueue_fst (s : QState) (src al : String) :
    (cmdEnqueue s src al).1 = promoteNext (enqueueStore s src al).1 := by
  unfold cmdEnqueue
  rcases enqueueStore s src al with ⟨s1, h⟩
  rfl

theorem wf_cmdEnqueue (s : QState) (src al : String) (hwf : Wf s) :
    Wf (cmdEnqueue s src al).1 := by
  rw [cmdEnqueue_fst]
  exact wf_promoteNext _ (wf_enqueueStore s src al hwf)

theorem wf_cmdRemove (s : QState) (h : String) (hwf : Wf s) :
    Wf (cmdRemove s h) := by
  obtain ⟨h1, h2, h3⟩ := hwf
  refine ⟨?_, ?_, ?_⟩
  · intro u hu
    exact h1 u (List.mem_of_mem_filter hu)
  · exact h2
  · have hsub : allHashes (cmdRemove s h) |>.Sublist (allHashes s) := by
      unfold allHashes queueHashes cmdRemove
      exact ((List.filter_sublist _).map _).append_left _
    exact h3.sublist hsub

theorem wf_cmdReorder (s : QState) (hashes : List String) (hwf : Wf s) :
    Wf (cmdReorder s hashes).1 := by
  obtain ⟨h1, h2, h3⟩ := hwf
  by_cases hp : hashes.Perm (queueHashes s)
  · have hred : cmdReorder s hashes =
        ({ s with queue := hashes.filterMap (fun h => s.queue.find? (fun t => t.hash = h)) },
          true) := by
      simp [cmdReorder, hp]
    rw [hred]
    refine ⟨?_, ?_, ?_⟩
    · intro u hu
      exact h1 u (filterMap_find_subset s.queue hashes u hu)
    · exact h2
    · have hmem : ∀ h ∈ hashes, h ∈ s.queue.map (·.hash) :=
        fun h hh => hp.mem_iff.mp hh
      have hrw : allHashes
          { s with queue := hashes.filterMap (fun h => s.queue.find? (fun t => t.hash = h)) } =
          (s.activeJob.map (·.hash)).toList ++ hashes := by
        unfold allHashes queueHashes
        rw [filterMap_find_map_hash s.queue hashes hmem]
      rw [hrw]
      exact ((hp.symm.append_left _).nodup) h3
  · simpa [cmdReorder, hp] using ⟨h1, h2, h3⟩

theorem wf_demoteActive (s : QState) (pos : ℕ) (hwf : Wf s) :
    Wf (demoteActive s pos) := by
  obtain ⟨h1, h2, h3⟩ := hwf
  rcases hA : s.activeJob with _ | t
  · simpa [demoteActive, hA] using ⟨h1, h2, h3⟩
  · have hle : min pos s.queue.length ≤ s.queue.length := Nat.min_le_right _ _
    refine ⟨?_, ?_, ?_⟩
    · intro u hu
      simp only [demoteActive, hA] at hu
      rcases (List.mem_insertIdx hle).mp hu with hu | hu
      · subst hu
        rfl
      · exact h1 u hu
    · intro u hu
      simp [demoteActive, hA] at hu
    · have hins := insertIdx_perm_cons { t with status := TStatus.queued }
        s.queue (min pos s.queue.length) hle
      have hmap := hins.map (fun u : Transfer => u.hash)
      have heq1 : allHashes (demoteActive s pos) =
          (s.queue.insertIdx (min pos s.queue.length)
            { t with status := TStatus.queued }).map (fun u => u.hash) := by
        simp [demoteActive, hA, allHashes, queueHashes]
      have heq2 : allHashes s = t.hash :: s.queue.map (fun u => u.hash) := by
        simp [allHashes, queueHashes, hA]
      have hperm : (allHashes (demoteActive s pos)).Perm (allHashes s) := by
        rw [heq1, heq2]
        simpa using hmap
      exact hperm.symm.nodup h3

theorem wf_cmdPause (s : QState) (hwf : Wf s) : Wf (cmdPause s) := by
  obtain ⟨h1, h2, h3⟩ := hwf
  rcases hA : s.activeJob with _ | t
  · simpa [cmdPause, hA] using ⟨h1, h2, h3⟩
  · by_cases ht : t.status = TStatus.active
    · refine ⟨?_, ?_, ?_⟩
      · intro u hu
        simp only [cmdPause, hA, ht, if_pos] at hu
        exact h1 u hu
      · intro u hu
        simp only [cmdPause, hA, ht, if_pos] at hu
        simp at hu
        subst hu
        simp
      · have : allHashes (cmdPause s) = allHashes s := by
          simp [cmdPause, allHashes, queueHashes, hA, ht]
        rw [this]
        exact h3
    · simpa [cmdPause, hA, ht] using ⟨h1, h2, h3⟩

theorem wf_cmdResume (s : QState) (hwf : Wf s) : Wf (cmdResume s) := by
  obtain ⟨h1, h2, h3⟩ := hwf
  rcases hA : s.activeJob with _ | t
  · simpa [cmdResume, hA] using ⟨h1, h2, h3⟩
  · by_cases ht : t.status = TStatus.paused
    · refine ⟨?_, ?_, ?_⟩
      · intro u hu
        simp only [cmdResume, hA, ht, if_pos] at hu
        exact h1 u hu
      · intro u hu
        simp only [cmdResume, hA, ht, if_pos] at hu
        simp at hu
        subst hu
        simp
      · have : allHashes (cmdResume s) = allHashes s := by
          simp [cmdResume, allHashes, queueHashes, hA, ht]
        rw [this]
        exact h3
    · simpa [cmdResume, hA, ht] using ⟨h1, h2, h3⟩

theorem wf_cmdCancel (s : QState) (hwf : Wf s) : Wf (cmdCancel s) := by
  obtain ⟨h1, h2, h3⟩ := hwf
  rcases hA : s.activeJob with _ | t
  · simpa [cmdCancel, hA] using ⟨h1, h2, h3⟩
  · have hcc : cmdCancel s = promoteNext
        { s with activeJob := none,
                 artifacts := s.artifacts.filter (fun x => x ≠ t.hash) } := by
      simp [cmdCancel, hA]
    rw [hcc]
    apply wf_promoteNext
    refine ⟨h1, ?_, ?_⟩
    · intro u hu
      simp at hu
    · have h3' : (allHashes s).Nodup := h3
      have : allHashes
          { s with activeJob := none,
                   artifacts := s.artifacts.filter (fun x => x ≠ t.hash) } =
          queueHashes s := by
        simp [allHashes, queueHashes]
      rw [this]
      have hrw : allHashes s = (s.activeJob.map (·.hash)).toList ++ queueHashes s := rfl
      rw [hrw] at h3'
      exact h3'.of_append_right

theorem reachable_wf (s : QState) (h : Reachable s) : Wf s := by
  induction h with
  | init => exact wf_initState
  | enqueue src al _ ih => exact wf_cmdEnqueue _ src al ih
  | remove hh _ ih => exact wf_cmdRemove _ hh ih
  | reorder hashes _ ih => exact wf_cmdReorder _ hashes ih
  | promote _ ih => exact wf_promoteNext _ ih
  | demote pos _ ih => exact wf_demoteActive _ pos ih
  | pause _ ih => exact wf_cmdPause _ ih
  | resume _ ih => exact wf_cmdResume _ ih
  | cancel _ ih => exact wf_cmdCancel _ ih

theorem activeCount_le_one (s : QState) (hwf : Wf s) : activeCount s ≤ 1 := by
  obtain ⟨h1, _, _⟩ := hwf
  unfold activeCount allTransfers
  rw [List.countP_append]
  have hq0 : s.queue.countP (fun t => decide (t.status = TStatus.active)) = 0 := by
    rw [List.countP_eq_zero]
    intro t ht
    simp [h1 t ht]
  have hopt : (s.activeJob.toList.countP (fun t => decide (t.status = TStatus.active))) ≤ 1 := by
    rcases s.activeJob with _ | t
    · simp
    · exact (List.countP_le_length _).trans (by simp)
  omega

end Core

/-- C1: in every state reachable from the empty system through the
Scheduler command interface (Enqueue, Remove, Reorder, PromoteNext,
DemoteActiveToQueue, Pause, Resume, Cancel), at most one live transfer
has status Active and the pending queue carries no duplicate hashes, so
all of these operations preserve the QueueStore invariant. -/
theorem claim_C1_invariant (s : Core.QState) (h : Core.Reachable s) :
    Core.activeCount s ≤ 1 ∧ (Core.queueHashes s).Nodup := by
  have hwf := Core.reachable_wf s h
  refine ⟨Core.activeCount_le_one s hwf, ?_⟩
  have h3 := hwf.2.2
  have hrw : Core.allHashes s =
      (s.activeJob.map (·.hash)).toList ++ Core.queueHashes s := rfl
  rw [hrw] at h3
  exact h3.of_append_right

/-- C1 witness: the state after one Enqueue on the empty system is
reachable and satisfies the invariant. -/
theorem claim_C1_witness :
    Core.activeCount (Core.cmdEnqueue Core.initState "a" "a").1 ≤ 1 ∧
    (Core.queueHashes (Core.cmdEnqueue Core.initState "a" "a").1).Nodup :=
  claim_C1_invariant (Core.cmdEnqueue Core.initState "a" "a").1
    (Core.Reachable.enqueue "a" "a" Core.Reachable.init)
